import Mathlib

/-!
Shallow embedding of the calculator pipeline from `src/calculator.py` and
`src/main.py` (repository guiqiqi/calculator-python-homework), together with
proofs settling the claims about its specification.

Python integers are modelled as `Int`; Python's `%` on integers is floored
modulo, i.e. `Int.fmod`, and Python's `//` is floored division, i.e.
`Int.fdiv`.  Fallible Python code (raising exceptions) is modelled with
`Except Err`, where `Err` distinguishes every `raise` site of the source,
keeping language-level faults (`ZeroDivisionError`, `IndexError`,
`AttributeError`) apart from the descriptive `ValueError`s the program
raises deliberately.
-/

namespace Calculator

/-- The error type: one constructor per distinct failure of the Python source.
The first block are the `ValueError`s raised by the program itself; the second
block are language-level faults (`ZeroDivisionError` from `%` by zero,
`IndexError` from `list.pop()` on an empty list, `AttributeError` from reading
`.priority` off a non-`Operator`).  `floatEscape` marks the one place the
integer model cannot follow the source: Python `int ** negative int` leaves ℤ
and returns a `float` (or raises `ZeroDivisionError` for base `0`). -/
inductive Err where
  | denominatorZero
  | invalidNumber (lit : String)
  | invalidInput (c : Char)
  | unbalancedBracket (pos : Nat)
  | invalidRPNElement
  | reduceError
  | redundantNumber
  | zeroDivisionError
  | indexError
  | attributeError
  | floatEscape
deriving DecidableEq

/-- Whether the error is one of the program's own descriptive `ValueError`s,
as opposed to a bare language-level arithmetic/list/attribute fault. -/
def Err.isValueError : Err → Bool
  | .denominatorZero => true
  | .invalidNumber _ => true
  | .invalidInput _ => true
  | .unbalancedBracket _ => true
  | .invalidRPNElement => true
  | .reduceError => true
  | .redundantNumber => true
  | .zeroDivisionError => false
  | .indexError => false
  | .attributeError => false
  | .floatEscape => false

/-- `def gcd(a, b): while b: a, b = b, a % b; return a` — the Euclidean loop of
`src/calculator.py` with Python's floored `%` (`Int.fmod`).  The loop is
modelled with a fuel argument; `|a % b| < |b|` whenever `b ≠ 0`, so any fuel
larger than `|b|` runs the loop to completion (proved in `gcdAux_fuel_irrel`). -/
def gcdAux : Int → Int → Nat → Int
  | a, _, 0 => a
  | a, b, fuel + 1 => if b = 0 then a else gcdAux b (Int.fmod a b) fuel

/-- The source's `gcd`, with enough fuel to finish the while loop. -/
def gcd (a b : Int) : Int := gcdAux a b (b.natAbs + 1)

/-- `class Fraction`: exact rational with the two fields the source stores.
No invariant is built into the type; the constructor `mkFraction` establishes
it, which is exactly what the claims are about. -/
structure Fraction where
  numerator : Int
  denominator : Int
deriving DecidableEq

/-- `Fraction.__init__`: raises `ValueError` on a zero denominator, otherwise
divides both fields by `gcd(numerator, denominator)` using Python's `//`
(`Int.fdiv`). -/
def mkFraction (numerator denominator : Int) : Except Err Fraction :=
  if denominator = 0 then .error .denominatorZero
  else
    let g := gcd numerator denominator
    .ok ⟨Int.fdiv numerator g, Int.fdiv denominator g⟩

/-- `Fraction.__add__` on two fractions (the `int` coercion branch is dead in
the pipeline: operands are always fractions). -/
def fracAdd (a b : Fraction) : Except Err Fraction :=
  mkFraction (a.numerator * b.denominator + b.numerator * a.denominator)
    (a.denominator * b.denominator)

/-- `Fraction.__sub__`. -/
def fracSub (a b : Fraction) : Except Err Fraction :=
  mkFraction (a.numerator * b.denominator - b.numerator * a.denominator)
    (a.denominator * b.denominator)

/-- `Fraction.__mul__`. -/
def fracMul (a b : Fraction) : Except Err Fraction :=
  mkFraction (a.numerator * b.numerator) (a.denominator * b.denominator)

/-- `Fraction.__truediv__`: no zero check of its own — a zero divisor reaches
`Fraction.__init__` as a zero denominator and raises its `ValueError`. -/
def fracDiv (a b : Fraction) : Except Err Fraction :=
  mkFraction (a.numerator * b.denominator) (a.denominator * b.numerator)

/-- `Fraction.__mod__`: computes
`(self.numerator * other.denominator) % (self.denominator * other.numerator)`
*before* any constructor check, so a zero modulus is Python's `x % 0` — a
language-level `ZeroDivisionError`, not a `ValueError`. -/
def fracMod (a b : Fraction) : Except Err Fraction :=
  if a.denominator * b.numerator = 0 then .error .zeroDivisionError
  else
    mkFraction (Int.fmod (a.numerator * b.denominator) (a.denominator * b.numerator))
      (a.denominator * b.denominator)

/-- `Fraction.__pow__`: `self.numerator ** other.numerator` over
`self.denominator ** other.denominator`.  For a negative exponent Python's
`int ** int` leaves ℤ (it returns a `float`, or raises `ZeroDivisionError`
for base `0`), which the integer model flags as `floatEscape`; on
non-negative exponents the model is exact. -/
def fracPow (a b : Fraction) : Except Err Fraction :=
  if b.numerator < 0 ∨ b.denominator < 0 then .error .floatEscape
  else mkFraction (a.numerator ^ b.numerator.toNat) (a.denominator ^ b.denominator.toNat)

/-- The six registered operators (`Add`, `Sub`, `Mul`, `Div`, `Mod`, `Pow`). -/
inductive Op where
  | add | sub | mul | div | mod | pow
deriving DecidableEq

/-- The `priority` attribute of each `Operator` as registered in the source:
`+`/`-` = 0, `*`/`/` = 1, `%` = 2, `^` = 3. -/
def Op.priority : Op → Nat
  | .add => 0
  | .sub => 0
  | .mul => 1
  | .div => 1
  | .mod => 2
  | .pow => 3

/-- The `evaluator` function attached to each operator
(`add_fractions`, ..., `power_fractions`). -/
def applyOp : Op → Fraction → Fraction → Except Err Fraction
  | .add, a, b => fracAdd a b
  | .sub, a, b => fracSub a b
  | .mul, a, b => fracMul a b
  | .div, a, b => fracDiv a b
  | .mod, a, b => fracMod a b
  | .pow, a, b => fracPow a b

/-- `class Braket(enum.Enum)` with members `L = '('` and `R = ')'`. -/
inductive Braket where
  | L | R
deriving DecidableEq

/-- `Token = Union[Number, Braket, Operator]` as a tagged sum. -/
inductive Token where
  | num (f : Fraction)
  | op (o : Op)
  | br (b : Braket)
deriving DecidableEq

/-- `isinstance(t, Number)`. -/
def Token.isNum : Token → Bool
  | .num _ => true
  | _ => false

/-- `isinstance(t, Operator)`. -/
def Token.isOp : Token → Bool
  | .op _ => true
  | _ => false

/-- `isinstance(t, Braket)`. -/
def Token.isBr : Token → Bool
  | .br _ => true
  | _ => false

/-- `Operator.Symbols` membership test of the tokenizer: which character is a
registered operator symbol. -/
def charToOp (c : Char) : Option Op :=
  if c = '+' then some .add
  else if c = '-' then some .sub
  else if c = '*' then some .mul
  else if c = '/' then some .div
  else if c = '%' then some .mod
  else if c = '^' then some .pow
  else none

/-- Value of a run of decimal digits, as Python's `int` parses it. -/
def digitsToNat (buf : List Char) : Nat :=
  buf.foldl (fun acc c => 10 * acc + (c.toNat - 48)) 0

/-- The tokenizer's buffer flush:
`try: result.append(Number(int(''.join(buffer)))) except ValueError: raise
ValueError(f'invalid number: ...')`.  The buffer holds only digits and dots;
`int` succeeds exactly when it is all digits (the caller guarantees it is
non-empty), and the `except ValueError` also covers the `Fraction`
constructor, re-raising as `invalid number`. -/
def flushNum (buf : List Char) : Except Err Fraction :=
  if buf.all Char.isDigit then
    match mkFraction (digitsToNat buf : Int) 1 with
    | .ok f => .ok f
    | .error _ => .error (.invalidNumber (String.mk buf))
  else .error (.invalidNumber (String.mk buf))

/-- The character scan of `tokenize`: spaces are skipped without flushing, a
digit or dot is buffered, anything else first flushes a non-empty buffer and
is then matched as an operator symbol, a bracket glyph, or rejected as
`invalid input`.  A trailing buffer is flushed at the end. -/
def tokenizeGo : List Char → List Char → List Token → Except Err (List Token)
  | [], buffer, result =>
    if buffer.isEmpty then .ok result
    else
      match flushNum buffer with
      | .ok f => .ok (result ++ [.num f])
      | .error e => .error e
  | c :: rest, buffer, result =>
    if c = ' ' then tokenizeGo rest buffer result
    else if c.isDigit || c = '.' then tokenizeGo rest (buffer ++ [c]) result
    else
      match (if buffer.isEmpty then .ok result
             else match flushNum buffer with
                  | .ok f => .ok (result ++ [.num f])
                  | .error e => .error e : Except Err (List Token)) with
      | .error e => .error e
      | .ok result =>
        match charToOp c with
        | some o => tokenizeGo rest [] (result ++ [.op o])
        | none =>
          if c = '(' then tokenizeGo rest [] (result ++ [.br .L])
          else if c = ')' then tokenizeGo rest [] (result ++ [.br .R])
          else .error (.invalidInput c)

/-- `def tokenize(expr)` of the source. -/
def tokenize (expr : String) : Except Err (List Token) :=
  tokenizeGo expr.toList [] []

/-- The unary-sign test of `prefixing` at index `idx` of the snapshot
`copied`: the token is `Add` or `Sub`, and `index == 0 or not
isinstance(copied[index - 1], Number)`.  (The default of `getD` is never
read: it is consulted only when `1 ≤ idx < copied.length`.) -/
def qualifies (copied : List Token) (idx : Nat) (t : Token) : Bool :=
  (t = .op .add || t = .op .sub) &&
    (idx == 0 || !(copied.getD (idx - 1) (.br .L)).isNum)

/-- Python `list.insert(i, x)`: insert before position `i` (appending when
`i` exceeds the length). -/
def pyInsert (l : List Token) (i : Nat) (x : Token) : List Token :=
  l.take i ++ x :: l.drop i

/-- The loop of `prefixing`: `for index, token in enumerate(copied)` walks the
snapshot while each qualifying sign triggers `tokens.insert(index,
Number(0, 1))` on the *mutated* list — the insertion index comes from the
snapshot, not from the list being modified. -/
def prefixingGo (copied : List Token) : List Token → Nat → List Token → List Token
  | [], _, tokens => tokens
  | t :: rest, idx, tokens =>
    let tokens' := if qualifies copied idx t then pyInsert tokens idx (.num ⟨0, 1⟩) else tokens
    prefixingGo copied rest (idx + 1) tokens'

/-- `def prefixing(tokens)`: mutates `tokens` in place in the source; here the
mutated list is returned.  `copied = tokens[::]` is the iteration snapshot,
and `Number(0, 1)` normalises to the fraction `0/1`. -/
def prefixing (tokens : List Token) : List Token :=
  prefixingGo tokens tokens 0 tokens

/-- The loop of `balancing`: running depth, raising at the current index the
moment the depth drops below zero, and at `len(tokens)` if the scan ends at a
non-zero depth. -/
def balancingGo : List Token → Nat → Int → Except Err Unit
  | [], idx, depth =>
    if depth = 0 then .ok () else .error (.unbalancedBracket idx)
  | t :: rest, idx, depth =>
    let depth' := if t = .br .L then depth + 1 else if t = .br .R then depth - 1 else depth
    if depth' < 0 then .error (.unbalancedBracket idx)
    else balancingGo rest (idx + 1) depth'

/-- `def balancing(tokens)`: returns `None` in the source and never mutates
its argument; here `Unit`. -/
def balancing (tokens : List Token) : Except Err Unit :=
  balancingGo tokens 0 0

/-- The `Operator` branch of `shunting`:
`while stack and stack[-1] != Braket.L and stack[-1].priority >= token.priority`.
Reading `.priority` off a token that is neither an `Operator` nor `Braket.L`
(i.e. a number or a right bracket on the stack) is a Python
`AttributeError`. -/
def popOps (output stack : List Token) (p : Nat) : Except Err (List Token × List Token)
  :=
  match stack with
  | [] => .ok (output, [])
  | .br .L :: _ => .ok (output, stack)
  | .op o :: rest =>
    if o.priority ≥ p then popOps (output ++ [.op o]) rest p else .ok (output, stack)
  | _ :: _ => .error .attributeError

/-- The `Braket.R` branch of `shunting`:
`while stack and stack[-1] != Braket.L: result.append(stack.pop())` followed by
`stack.pop()`, which on an exhausted stack is a Python `IndexError`. -/
def popUntilL (output stack : List Token) : Except Err (List Token × List Token) :=
  match stack with
  | [] => .error .indexError
  | .br .L :: rest => .ok (output, rest)
  | t :: rest => popUntilL (output ++ [t]) rest

/-- The token loop of `shunting` with explicit output and working stack (the
stack's head is Python's `stack[-1]`); at the end the remaining stack is
drained into the output. -/
def shuntingGo (output stack : List Token) : List Token → Except Err (List Token)
  | [] => .ok (output ++ stack)
  | t :: rest =>
    match t with
    | .num _ => shuntingGo (output ++ [t]) stack rest
    | .op o =>
      match popOps output stack o.priority with
      | .error e => .error e
      | .ok (out', st') => shuntingGo out' (.op o :: st') rest
    | .br .L => shuntingGo output (t :: stack) rest
    | .br .R =>
      match popUntilL output stack with
      | .error e => .error e
      | .ok (out', st') => shuntingGo out' st' rest

/-- `def shunting(tokens)`: the shunting-yard conversion of the source. -/
def shunting (tokens : List Token) : Except Err (List Token) :=
  shuntingGo [] [] tokens

/-- The token loop of `evaluate`: brackets are rejected (`invalid element
exists in RPN`), numbers are pushed, an operator pops `x` then `y` and pushes
`token(y, x)`; fewer than two stack entries at an operator is the
`invalid expression during reduce` `ValueError`. -/
def evaluateGo (stack : List Fraction) : List Token → Except Err (List Fraction)
  | [] => .ok stack
  | t :: rest =>
    match t with
    | .br _ => .error .invalidRPNElement
    | .num f => evaluateGo (f :: stack) rest
    | .op o =>
      match stack with
      | x :: y :: s =>
        match applyOp o y x with
        | .error e => .error e
        | .ok r => evaluateGo (r :: s) rest
      | _ => .error .reduceError

/-- `def evaluate(tokens)`: after the loop, `answer = stack.pop()` — an
`IndexError` on an empty stack — and a non-empty remainder is the
`invalid expression with redundant number` `ValueError`. -/
def evaluate (tokens : List Token) : Except Err Fraction :=
  match evaluateGo [] tokens with
  | .error e => .error e
  | .ok [] => .error .indexError
  | .ok [answer] => .ok answer
  | .ok (_ :: _ :: _) => .error .redundantNumber

/-- `def evaluator(expression)` of `src/main.py`: the full pipeline
tokenize → prefixing → balancing → shunting → evaluate.  The source finally
renders the result with `str`; the model returns the `Fraction` itself. -/
def evaluator (expression : String) : Except Err Fraction :=
  match tokenize expression with
  | .error e => .error e
  | .ok tokens =>
    let tokens := prefixing tokens
    match balancing tokens with
    | .error e => .error e
    | .ok () =>
      match shunting tokens with
      | .error e => .error e
      | .ok rpn => evaluate rpn

/-! ### Specification-side definitions

The following definitions restate parts of the spec in order to compare them
with the source functions above.  None of them is used inside the embedding of
the source. -/

/-- The invariant the spec states for the rational `Number`: the denominator
is positive (hence non-zero) and numerator/denominator share no common factor
greater than one. -/
def Inv (f : Fraction) : Prop :=
  0 < f.denominator ∧ Int.gcd f.numerator f.denominator = 1

instance (f : Fraction) : Decidable (Inv f) := by
  unfold Inv; infer_instance

/-- Number of positions of `rem` (scanned at offsets `idx, idx+1, ...` of the
snapshot `copied`) at which `prefixing` decides to insert a zero. -/
def countQGo (copied : List Token) : List Token → Nat → Nat
  | [], _ => 0
  | t :: rest, idx => (if qualifies copied idx t then 1 else 0) + countQGo copied rest (idx + 1)

/-- Number of sign tokens of `ts` that the normalizer treats as unary: those
at a position `i` with `i = 0` or the token at `i - 1` not a `Number`. -/
def countQualifying (ts : List Token) : Nat := countQGo ts ts 0

/-- Bracket depth contribution of one token. -/
def depthChange (t : Token) : Int :=
  if t = .br .L then 1 else if t = .br .R then -1 else 0

/-- Running bracket depth of a whole token sequence. -/
def depthSum (ts : List Token) : Int := (ts.map depthChange).sum

/-- Modelled from the spec: the index of the first token at which the running
bracket depth (started at `d`) goes negative. -/
def firstNegAux : List Token → Int → Option Nat
  | [], _ => none
  | t :: rest, d =>
    let d' := d + depthChange t
    if d' < 0 then some 0 else (firstNegAux rest d').map (· + 1)

/-- Modelled from the spec (§4.3): fail at the first index where the depth
goes negative; after a full non-negative scan fail at `ts.length` when the
depth is not zero; succeed otherwise. -/
def specBalancing (ts : List Token) : Except Err Unit :=
  match firstNegAux ts 0 with
  | some i => .error (.unbalancedBracket i)
  | none => if depthSum ts = 0 then .ok () else .error (.unbalancedBracket ts.length)

/-- Well-nested brackets: every prefix depth is non-negative and the total
depth is zero. -/
def WellNested (ts : List Token) : Prop :=
  (∀ i ≤ ts.length, 0 ≤ depthSum (ts.take i)) ∧ depthSum ts = 0

instance (ts : List Token) : Decidable (WellNested ts) := by
  unfold WellNested; infer_instance

/-- No `Braket` token occurs in the sequence. -/
def noBrackets (ts : List Token) : Bool := ts.all (fun t => !t.isBr)

/-- Every stack entry of the shunting-yard working stack is an operator or a
left bracket. -/
def stackOnlyOpsL (st : List Token) : Bool := st.all (fun t => t.isOp || t = .br .L)

/-- Number of left brackets on the shunting-yard working stack. -/
def countL (st : List Token) : Nat := st.countP (fun t => t = .br .L)

/-- Stack-shape check of a postfix sequence, starting from a stack of size
`s`: every operator must find at least two operands. -/
def shapeRun (s : Int) : List Token → Bool
  | [] => true
  | .num _ :: rest => shapeRun (s + 1) rest
  | .op _ :: rest => decide (2 ≤ s) && shapeRun (s - 1) rest
  | .br _ :: rest => shapeRun s rest

/-- Net stack-size contribution of one postfix token. -/
def sizeDelta : Token → Int
  | .num _ => 1
  | .op _ => -1
  | .br _ => 0

/-- Final stack size after a postfix run started from size `s` (assuming no
failure). -/
def finalSize (s : Int) (ts : List Token) : Int := s + (ts.map sizeDelta).sum

/-- The errors an operator application (`applyOp`) itself can produce:
division by a zero fraction (`ValueError` from the constructor), modulo by a
zero fraction (Python `ZeroDivisionError`), and the integer model's marker
for `**` with a negative exponent. -/
def Err.isArith : Err → Bool
  | .denominatorZero => true
  | .zeroDivisionError => true
  | .floatEscape => true
  | _ => false

/-- Whether an evaluation outcome is an operator-application failure. -/
def exceptArith : Except Err Fraction → Bool
  | .error e => e.isArith
  | .ok _ => false

/-- Whether an evaluation outcome is one of the two `MalformedExpression`
`ValueError`s of `evaluate` (too few operands at an operator / leftover
operands at the end). -/
def malformedB : Except Err Fraction → Bool
  | .error .reduceError => true
  | .error .redundantNumber => true
  | _ => false

/-! ### Theorems -/

/-- C1: the claim bundles division by zero and modulo by zero.  Division by
zero does surface the typed `ValueError` (the constructor's
`Denominator cannot be zero.`), but modulo by zero executes Python's `x % 0`
before any check and crashes with a language-level `ZeroDivisionError` — the
code contradicts the spec's error taxonomy for `ModuloByZero`. -/
theorem c1_div_mod_by_zero :
    evaluator "1 / 0" = .error .denominatorZero ∧
    Err.isValueError .denominatorZero = true ∧
    evaluator "1 % 0" = .error .zeroDivisionError ∧
    Err.isValueError .zeroDivisionError = false :=
  ⟨rfl, rfl, rfl, rfl⟩

/-- C2: the full pipeline on `"3 + 4 * 2 / (1 - 5) ^ 2"` succeeds and returns
exactly the fraction `7/2` (the exact rational equivalent of 3.5). -/
theorem c2_pipeline_example :
    evaluator "3 + 4 * 2 / (1 - 5) ^ 2" = .ok ⟨7, 2⟩ :=
  rfl

/-- C4 (counter-evidence, code bug): on the tokens of `"-1 + -2"` the second
inserted zero lands before the `+`, not before its own unary `-`: the
insertion index is taken from the pre-insertion snapshot but applied to the
already-shifted list.  The result is `[0, -, 1, 0, +, -, 2]`, not the claimed
`[0, -, 1, +, 0, -, 2]` (and the full pipeline then yields `-1` instead of
`-3`). -/
theorem c4_stale_insertion :
    tokenize "-1 + -2" =
      .ok [.op .sub, .num ⟨1, 1⟩, .op .add, .op .sub, .num ⟨2, 1⟩] ∧
    prefixing [.op .sub, .num ⟨1, 1⟩, .op .add, .op .sub, .num ⟨2, 1⟩] =
      [.num ⟨0, 1⟩, .op .sub, .num ⟨1, 1⟩, .num ⟨0, 1⟩, .op .add, .op .sub, .num ⟨2, 1⟩] ∧
    prefixing [.op .sub, .num ⟨1, 1⟩, .op .add, .op .sub, .num ⟨2, 1⟩] ≠
      [.num ⟨0, 1⟩, .op .sub, .num ⟨1, 1⟩, .op .add, .num ⟨0, 1⟩, .op .sub, .num ⟨2, 1⟩] ∧
    evaluator "-1 + -2" = .ok ⟨-1, 1⟩ :=
  ⟨rfl, rfl, by decide, rfl⟩

/-- C5 (counter-evidence, code bug): the tokenizer parses the buffer with
Python's `int`, so the single-decimal-point literal `"1.2"` — which the claim
(and the repository's own test `test_tokenize_complex`) expects to become a
`Number` — raises `invalid number: 1.2`.  Digit-only literals do flush as a
single `Number` token. -/
theorem c5_decimal_literals_rejected :
    tokenize "1.2" = .error (.invalidNumber "1.2") ∧
    tokenize "1..2" = .error (.invalidNumber "1..2") ∧
    tokenize "12" = .ok [.num ⟨12, 1⟩] :=
  ⟨rfl, rfl, rfl⟩

/-- C7: chained equal-precedence operators evaluate left-associatively:
`"8 - 4 - 2"` shunts to the postfix `[8, 4, -, 2, -]` and evaluates to `2`
(that is, `(8-4)-2`), not `6`. -/
theorem c7_left_assoc :
    evaluator "8 - 4 - 2" = .ok ⟨2, 1⟩ ∧
    shunting [.num ⟨8, 1⟩, .op .sub, .num ⟨4, 1⟩, .op .sub, .num ⟨2, 1⟩] =
      .ok [.num ⟨8, 1⟩, .num ⟨4, 1⟩, .op .sub, .num ⟨2, 1⟩, .op .sub] ∧
    (⟨2, 1⟩ : Fraction) ≠ ⟨6, 1⟩ :=
  ⟨rfl, rfl, by decide⟩

/-- C3 (counterexample): the sign normalizer does *not* exempt a `+`/`-`
whose predecessor is a closing bracket — the code only tests
`isinstance(copied[index - 1], Number)`.  On the tokens of `"(1 + 2) - 3"` a
zero *is* inserted before the `-`, contradicting the claim that no zero is
inserted there. -/
theorem c3_closing_bracket_not_exempt :
    prefixing [.br .L, .num ⟨1, 1⟩, .op .add, .num ⟨2, 1⟩, .br .R, .op .sub, .num ⟨3, 1⟩] =
      [.br .L, .num ⟨1, 1⟩, .op .add, .num ⟨2, 1⟩, .br .R, .num ⟨0, 1⟩, .op .sub,
        .num ⟨3, 1⟩] ∧
    prefixing [.br .L, .num ⟨1, 1⟩, .op .add, .num ⟨2, 1⟩, .br .R, .op .sub, .num ⟨3, 1⟩] ≠
      [.br .L, .num ⟨1, 1⟩, .op .add, .num ⟨2, 1⟩, .br .R, .op .sub, .num ⟨3, 1⟩] :=
  ⟨rfl, by decide⟩

/-- C6 (counterexample): on the empty postfix sequence the final
`stack.pop()` of `evaluate` is executed on an empty list, a language-level
`IndexError` — not the claimed `MalformedExpression` `ValueError`. -/
theorem c6_empty_sequence_index_error :
    evaluate [] = .error .indexError ∧ Err.isValueError .indexError = false :=
  ⟨rfl, rfl⟩

theorem length_pyInsert (l : List Token) (i : Nat) (x : Token) :
    (pyInsert l i x).length = l.length + 1 := by
  simp only [pyInsert, List.length_append, List.length_take, List.length_cons,
    List.length_drop]
  omega

theorem prefixingGo_length (copied : List Token) :
    ∀ rem idx tokens, (prefixingGo copied rem idx tokens).length
      = tokens.length + countQGo copied rem idx := by
  intro rem
  induction rem with
  | nil => intro idx tokens; simp [prefixingGo, countQGo]
  | cons t rest ih =>
    intro idx tokens
    simp only [prefixingGo, countQGo]
    cases h : qualifies copied idx t
    · simp only [h, Bool.false_eq_true, if_false, ih]; omega
    · simp only [h, if_true, ih, length_pyInsert]; omega

theorem prefixingGo_no_insert (copied : List Token) :
    ∀ rem idx tokens, countQGo copied rem idx = 0 →
      prefixingGo copied rem idx tokens = tokens := by
  intro rem
  induction rem with
  | nil => intro idx tokens _; rfl
  | cons t rest ih =>
    intro idx tokens h
    simp only [countQGo] at h
    cases hq : qualifies copied idx t
    · simp only [prefixingGo, hq, Bool.false_eq_true, if_false]
      exact ih (idx + 1) tokens (by simp [hq] at h; omega)
    · simp [hq] at h

/-- C3 (amended): the normalizer inserts one zero for each `+`/`-` at a
position `i` with `i = 0` or the token at `i - 1` not a `Number` — a
preceding closing bracket does *not* suppress the insertion.  The output
length is the input length plus the number of such signs, the output is the
input exactly when no sign qualifies, a zero is inserted after the closing
bracket in the tokens of `"(1 + 2) - 3"`, and the tokens of `"-1 + 2"`
normalize to `[0, -, 1, +, 2]`. -/
theorem c3_amended :
    (∀ ts : List Token,
      (prefixing ts).length = ts.length + countQualifying ts ∧
      (prefixing ts = ts ↔ countQualifying ts = 0)) ∧
    prefixing [.br .L, .num ⟨1, 1⟩, .op .add, .num ⟨2, 1⟩, .br .R, .op .sub, .num ⟨3, 1⟩] =
      [.br .L, .num ⟨1, 1⟩, .op .add, .num ⟨2, 1⟩, .br .R, .num ⟨0, 1⟩, .op .sub,
        .num ⟨3, 1⟩] ∧
    prefixing [.op .sub, .num ⟨1, 1⟩, .op .add, .num ⟨2, 1⟩] =
      [.num ⟨0, 1⟩, .op .sub, .num ⟨1, 1⟩, .op .add, .num ⟨2, 1⟩] := by
  refine ⟨fun ts => ⟨prefixingGo_length ts ts 0 ts, ?_, ?_⟩, rfl, rfl⟩
  · intro h
    have h2 := prefixingGo_length ts ts 0 ts
    simp only [prefixing] at h
    rw [h] at h2
    simpa [countQualifying] using h2.symm
  · intro h
    simp only [countQualifying] at h
    simp only [prefixing]
    exact prefixingGo_no_insert ts ts 0 ts h

theorem balancingGo_step (t : Token) (d : Int) :
    (if t = .br .L then d + 1 else if t = .br .R then d - 1 else d) = d + depthChange t := by
  simp only [depthChange]
  split_ifs <;> omega

theorem balancingGo_spec :
    ∀ (rem : List Token) (idx : Nat) (depth : Int), 0 ≤ depth →
      balancingGo rem idx depth =
        (match firstNegAux rem depth with
         | some j => .error (.unbalancedBracket (idx + j))
         | none =>
           if depth + depthSum rem = 0 then .ok ()
           else .error (.unbalancedBracket (idx + rem.length))) := by
  intro rem
  induction rem with
  | nil =>
    intro idx depth _
    simp [balancingGo, firstNegAux, depthSum]
  | cons t rest ih =>
    intro idx depth hd
    simp only [balancingGo, balancingGo_step t depth, firstNegAux]
    by_cases hneg : depth + depthChange t < 0
    · simp [hneg]
    · have h0 : 0 ≤ depth + depthChange t := by omega
      rw [if_neg hneg, if_neg hneg, ih (idx + 1) _ h0]
      cases hfn : firstNegAux rest (depth + depthChange t) with
      | some j =>
        simp only [Option.map_some']
        have hj : idx + 1 + j = idx + (j + 1) := by omega
        rw [hj]
      | none =>
        simp only [Option.map_none']
        have hsum : depth + depthChange t + depthSum rest = depth + depthSum (t :: rest) := by
          simp only [depthSum, List.map_cons, List.sum_cons]; ring
        rw [hsum]
        by_cases hz : depth + depthSum (t :: rest) = 0
        · simp [hz]
        · have hlen : idx + 1 + rest.length = idx + (t :: rest).length := by
            simp only [List.length_cons]; omega
          simp [hz, hlen]

theorem firstNegAux_none_iff :
    ∀ (rem : List Token) (d : Int), 0 ≤ d →
      (firstNegAux rem d = none ↔ ∀ i ≤ rem.length, 0 ≤ d + depthSum (rem.take i)) := by
  intro rem
  induction rem with
  | nil =>
    intro d hd
    simp only [firstNegAux, List.length_nil]
    constructor
    · intro _ i hi
      interval_cases i
      simpa [depthSum] using hd
    · intro _; trivial
  | cons t rest ih =>
    intro d hd
    simp only [firstNegAux]
    by_cases hneg : d + depthChange t < 0
    · simp only [hneg, if_true]
      constructor
      · intro h; simp at h
      · intro h
        have := h 1 (by simp [List.length_cons])
        simp only [List.take_succ_cons, List.take_zero, depthSum, List.map_cons,
          List.map_nil, List.sum_cons, List.sum_nil, Int.add_zero] at this
        omega
    · have h0 : 0 ≤ d + depthChange t := by omega
      rw [if_neg hneg]
      rw [Option.map_eq_none']
      rw [ih _ h0]
      constructor
      · intro h i hi
        cases i with
        | zero => simpa [depthSum] using hd
        | succ j =>
          have := h j (by simpa [List.length_cons] using hi)
          simp only [List.take_succ_cons, depthSum, List.map_cons, List.sum_cons]
          simp only [depthSum] at this
          omega
      · intro h j hj
        have := h (j + 1) (by simp [List.length_cons]; omega)
        simp only [List.take_succ_cons, depthSum, List.map_cons, List.sum_cons] at this
        simp only [depthSum]
        omega

theorem balancing_eq_spec (ts : List Token) : balancing ts = specBalancing ts := by
  have h := balancingGo_spec ts 0 0 le_rfl
  simp only [balancing, specBalancing, Int.zero_add] at h ⊢
  rw [h]
  cases hfn : firstNegAux ts 0 with
  | some j => simp
  | none => simp

theorem balancing_ok_iff (ts : List Token) : balancing ts = .ok () ↔ WellNested ts := by
  rw [balancing_eq_spec]
  simp only [specBalancing, WellNested]
  cases hfn : firstNegAux ts 0 with
  | some j =>
    constructor
    · intro h; simp at h
    · intro hWN
      have := (firstNegAux_none_iff ts 0 le_rfl).mpr
        (by intro i hi; simpa using hWN.1 i hi)
      simp [hfn] at this
  | none =>
    have hall := (firstNegAux_none_iff ts 0 le_rfl).mp hfn
    by_cases hz : depthSum ts = 0
    · rw [if_pos hz]
      constructor
      · intro _; exact ⟨fun i hi => by simpa using hall i hi, hz⟩
      · intro _; rfl
    · rw [if_neg hz]
      constructor
      · intro h; simp at h
      · intro h; exact absurd h.2 hz

/-- C8: the bracket validator succeeds exactly on well-nested token
sequences, and on failure it reports the position the spec describes: the
index of the first token at which the running depth goes negative, or the
sequence length after a full non-negative scan ending at non-zero depth
(`specBalancing` restates the spec's §4.3 algorithm).  The source function
returns `None` and never mutates the token list, so on success the sequence
is passed on unchanged. -/
theorem c8_balancing_correct :
    ∀ ts : List Token,
      (balancing ts = .ok () ↔ WellNested ts) ∧ balancing ts = specBalancing ts :=
  fun ts => ⟨balancing_ok_iff ts, balancing_eq_spec ts⟩

theorem noBrackets_append (a b : List Token) :
    noBrackets (a ++ b) = (noBrackets a && noBrackets b) := by
  simp [noBrackets, List.all_append]

theorem noBrackets_push (output : List Token) (t : Token) (hout : noBrackets output = true)
    (ht : t.isBr = false) : noBrackets (output ++ [t]) = true := by
  rw [noBrackets_append, hout]
  simp [noBrackets, ht]

theorem stackOnly_cons_op (o : Op) (st : List Token) (h : stackOnlyOpsL st = true) :
    stackOnlyOpsL (.op o :: st) = true := by
  simp only [stackOnlyOpsL] at h ⊢
  simp only [List.all_cons, Bool.and_eq_true]
  exact ⟨by simp [Token.isOp], h⟩

theorem stackOnly_cons_L (st : List Token) (h : stackOnlyOpsL st = true) :
    stackOnlyOpsL (.br .L :: st) = true := by
  simp only [stackOnlyOpsL] at h ⊢
  simp only [List.all_cons, Bool.and_eq_true]
  exact ⟨by simp, h⟩

theorem countL_cons_op (o : Op) (st : List Token) : countL (.op o :: st) = countL st := by
  simp [countL, List.countP_cons]

theorem countL_cons_num (f : Fraction) (st : List Token) :
    countL (.num f :: st) = countL st := by
  simp [countL, List.countP_cons]

theorem countL_cons_L (st : List Token) : countL (.br .L :: st) = countL st + 1 := by
  simp [countL, List.countP_cons]

theorem depthChange_L : depthChange (.br .L) = 1 := rfl

theorem depthChange_R : depthChange (.br .R) = -1 := rfl

theorem depthChange_num (f : Fraction) : depthChange (.num f) = 0 := rfl

theorem depthChange_op (o : Op) : depthChange (.op o) = 0 := rfl

theorem stack_no_L_noBrackets :
    ∀ st : List Token, stackOnlyOpsL st = true → countL st = 0 → noBrackets st = true := by
  intro st
  induction st with
  | nil => intro _ _; rfl
  | cons t rest ih =>
    intro h hc
    simp only [stackOnlyOpsL, List.all_cons, Bool.and_eq_true] at h
    simp only [countL, List.countP_cons] at hc
    simp only [noBrackets, List.all_cons, Bool.and_eq_true]
    cases t with
    | num f => simp [Token.isOp] at h
    | op o =>
      refine ⟨rfl, ?_⟩
      have : countL rest = 0 := by simpa [countL] using hc
      exact ih h.2 this
    | br b =>
      cases b with
      | L => simp at hc
      | R => simp [Token.isOp] at h

theorem popOps_spec :
    ∀ (stack output : List Token) (p : Nat), stackOnlyOpsL stack = true →
      ∃ out' st', popOps output stack p = .ok (out', st') ∧
        stackOnlyOpsL st' = true ∧ countL st' = countL stack ∧
        (noBrackets output = true → noBrackets out' = true) := by
  intro stack
  induction stack with
  | nil => intro output p _; exact ⟨output, [], rfl, rfl, rfl, fun h => h⟩
  | cons t rest ih =>
    intro output p hOK
    have hOK' := hOK
    simp only [stackOnlyOpsL, List.all_cons, Bool.and_eq_true] at hOK'
    cases t with
    | num f => simp [Token.isOp] at hOK'
    | br b =>
      cases b with
      | L => exact ⟨output, .br .L :: rest, rfl, hOK, rfl, fun h => h⟩
      | R => simp [Token.isOp] at hOK'
    | op o =>
      by_cases hp : o.priority ≥ p
      · obtain ⟨out', st', heq, h1, h2, h3⟩ := ih (output ++ [.op o]) p hOK'.2
        refine ⟨out', st', ?_, h1, ?_, ?_⟩
        · simpa [popOps, hp] using heq
        · rw [h2, countL_cons_op]
        · intro hob
          exact h3 (noBrackets_push output (.op o) hob rfl)
      · refine ⟨output, .op o :: rest, ?_, hOK, rfl, fun h => h⟩
        simp [popOps, hp]

theorem popUntilL_spec :
    ∀ (stack output : List Token), stackOnlyOpsL stack = true → 1 ≤ countL stack →
      ∃ out' st', popUntilL output stack = .ok (out', st') ∧
        stackOnlyOpsL st' = true ∧ countL st' + 1 = countL stack ∧
        (noBrackets output = true → noBrackets out' = true) := by
  intro stack
  induction stack with
  | nil => intro output _ hc; simp [countL] at hc
  | cons t rest ih =>
    intro output hOK hc
    have hOK' := hOK
    simp only [stackOnlyOpsL, List.all_cons, Bool.and_eq_true] at hOK'
    cases t with
    | num f => simp [Token.isOp] at hOK'
    | br b =>
      cases b with
      | L =>
        refine ⟨output, rest, rfl, hOK'.2, ?_, fun h => h⟩
        rw [countL_cons_L]
      | R => simp [Token.isOp] at hOK'
    | op o =>
      have hc' : 1 ≤ countL rest := by rw [countL_cons_op] at hc; exact hc
      obtain ⟨out', st', heq, h1, h2, h3⟩ := ih (output ++ [.op o]) hOK'.2 hc'
      refine ⟨out', st', ?_, h1, ?_, ?_⟩
      · simpa [popUntilL] using heq
      · rw [h2, countL_cons_op]
      · intro hob
        exact h3 (noBrackets_push output (.op o) hob rfl)

theorem depthSum_cons (t : Token) (rest : List Token) :
    depthSum (t :: rest) = depthChange t + depthSum rest := by
  simp [depthSum]

theorem shuntingGo_spec :
    ∀ (rem output stack : List Token),
      stackOnlyOpsL stack = true → noBrackets output = true →
      (∀ i ≤ rem.length, 0 ≤ (countL stack : Int) + depthSum (rem.take i)) →
      (countL stack : Int) + depthSum rem = 0 →
      ∃ out, shuntingGo output stack rem = .ok out ∧ noBrackets out = true := by
  intro rem
  induction rem with
  | nil =>
    intro output stack hst hout _ htot
    have hL : countL stack = 0 := by
      simp only [depthSum, List.map_nil, List.sum_nil, Int.add_zero] at htot
      exact_mod_cast htot
    have hnb := stack_no_L_noBrackets stack hst hL
    exact ⟨output ++ stack, rfl, by rw [noBrackets_append]; simp [hout, hnb]⟩
  | cons t rest ih =>
    intro output stack hst hout hpre htot
    cases t with
    | num f =>
      have hpre' : ∀ i ≤ rest.length, 0 ≤ (countL stack : Int) + depthSum (rest.take i) := by
        intro i hi
        have h := hpre (i + 1) (by simp only [List.length_cons]; omega)
        rw [List.take_succ_cons, depthSum_cons, depthChange_num] at h
        omega
      have htot' : (countL stack : Int) + depthSum rest = 0 := by
        rw [depthSum_cons, depthChange_num] at htot
        omega
      obtain ⟨out, heq, hnb⟩ := ih (output ++ [.num f]) stack hst
        (noBrackets_push output (.num f) hout rfl) hpre' htot'
      exact ⟨out, heq, hnb⟩
    | op o =>
      obtain ⟨out', st', heq, h1, h2, h3⟩ := popOps_spec stack output o.priority hst
      have hcL : countL (Token.op o :: st') = countL stack := by
        rw [countL_cons_op, h2]
      have hpre' : ∀ i ≤ rest.length,
          0 ≤ (countL (Token.op o :: st') : Int) + depthSum (rest.take i) := by
        intro i hi
        rw [hcL]
        have h := hpre (i + 1) (by simp only [List.length_cons]; omega)
        rw [List.take_succ_cons, depthSum_cons, depthChange_op] at h
        omega
      have htot' : (countL (Token.op o :: st') : Int) + depthSum rest = 0 := by
        rw [hcL]
        rw [depthSum_cons, depthChange_op] at htot
        omega
      obtain ⟨out, heq2, hnb⟩ := ih out' (.op o :: st') (stackOnly_cons_op o st' h1)
        (h3 hout) hpre' htot'
      refine ⟨out, ?_, hnb⟩
      simp only [shuntingGo, heq, heq2]
    | br b =>
      cases b with
      | L =>
        have hpre' : ∀ i ≤ rest.length,
            0 ≤ (countL (Token.br .L :: stack) : Int) + depthSum (rest.take i) := by
          intro i hi
          rw [countL_cons_L]
          have h := hpre (i + 1) (by simp only [List.length_cons]; omega)
          rw [List.take_succ_cons, depthSum_cons, depthChange_L] at h
          push_cast
          omega
        have htot' : (countL (Token.br .L :: stack) : Int) + depthSum rest = 0 := by
          rw [countL_cons_L]
          rw [depthSum_cons, depthChange_L] at htot
          push_cast
          omega
        obtain ⟨out, heq, hnb⟩ := ih output (.br .L :: stack) (stackOnly_cons_L stack hst)
          hout hpre' htot'
        exact ⟨out, heq, hnb⟩
      | R =>
        have hge : 1 ≤ countL stack := by
          have h := hpre 1 (by simp only [List.length_cons]; omega)
          rw [List.take_succ_cons, List.take_zero, depthSum_cons, depthChange_R] at h
          simp only [depthSum, List.map_nil, List.sum_nil] at h
          omega
        obtain ⟨out', st', heq, h1, h2, h3⟩ := popUntilL_spec stack output hst hge
        have hc : (countL st' : Int) = (countL stack : Int) - 1 := by omega
        have hpre' : ∀ i ≤ rest.length, 0 ≤ (countL st' : Int) + depthSum (rest.take i) := by
          intro i hi
          have h := hpre (i + 1) (by simp only [List.length_cons]; omega)
          rw [List.take_succ_cons, depthSum_cons, depthChange_R] at h
          omega
        have htot' : (countL st' : Int) + depthSum rest = 0 := by
          rw [depthSum_cons, depthChange_R] at htot
          omega
        obtain ⟨out, heq2, hnb⟩ := ih out' st' h1 (h3 hout) hpre' htot'
        refine ⟨out, ?_, hnb⟩
        simp only [shuntingGo, heq, heq2]

/-- C10: whenever the bracket validator succeeds on a token sequence, the
shunting-yard conversion succeeds and its postfix output contains no `Left`
or `Right` bracket token — only numbers and operators. -/
theorem c10_no_brackets_in_postfix :
    ∀ ts : List Token, balancing ts = .ok () →
      ∃ out, shunting ts = .ok out ∧ noBrackets out = true := by
  intro ts hb
  have hWN := (balancing_ok_iff ts).mp hb
  have h := shuntingGo_spec ts [] [] rfl rfl
    (by intro i hi; have := hWN.1 i hi; simpa [countL] using this)
    (by have := hWN.2; simpa [countL] using this)
  exact h

/-- Witness for C10 at the tokens of `"(1 + 2)"`. -/
theorem c10_witness :
    balancing [Token.br .L, .num ⟨1, 1⟩, .op .add, .num ⟨2, 1⟩, .br .R] = .ok () ∧
    ∃ out, shunting [Token.br .L, .num ⟨1, 1⟩, .op .add, .num ⟨2, 1⟩, .br .R] = .ok out ∧
      noBrackets out = true :=
  ⟨rfl, c10_no_brackets_in_postfix
    [Token.br .L, .num ⟨1, 1⟩, .op .add, .num ⟨2, 1⟩, .br .R] rfl⟩

theorem mkFraction_error {n d : Int} {e : Err} (h : mkFraction n d = .error e) :
    e = .denominatorZero := by
  unfold mkFraction at h
  split at h
  · exact (Except.error.inj h).symm
  · exact Except.noConfusion h

theorem applyOp_error_isArith {o : Op} {a b : Fraction} {e : Err}
    (h : applyOp o a b = .error e) : e.isArith = true := by
  cases o with
  | add =>
    simp only [applyOp, fracAdd] at h
    rw [mkFraction_error h]; rfl
  | sub =>
    simp only [applyOp, fracSub] at h
    rw [mkFraction_error h]; rfl
  | mul =>
    simp only [applyOp, fracMul] at h
    rw [mkFraction_error h]; rfl
  | div =>
    simp only [applyOp, fracDiv] at h
    rw [mkFraction_error h]; rfl
  | mod =>
    simp only [applyOp, fracMod] at h
    split at h
    · rw [(Except.error.inj h).symm]; rfl
    · rw [mkFraction_error h]; rfl
  | pow =>
    simp only [applyOp, fracPow] at h
    split at h
    · rw [(Except.error.inj h).symm]; rfl
    · rw [mkFraction_error h]; rfl

theorem noBrackets_cons (t : Token) (rest : List Token) :
    noBrackets (t :: rest) = (!t.isBr && noBrackets rest) := by
  simp [noBrackets]

theorem finalSize_cons (s : Int) (t : Token) (rest : List Token) :
    finalSize s (t :: rest) = finalSize (s + sizeDelta t) rest := by
  simp only [finalSize, List.map_cons, List.sum_cons]
  ring

theorem finalSize_nil (s : Int) : finalSize s [] = s := by
  simp [finalSize]

theorem evaluateGo_shape_true :
    ∀ (rem : List Token) (stack : List Fraction),
      noBrackets rem = true → shapeRun (stack.length : Int) rem = true →
      (∃ st', evaluateGo stack rem = .ok st' ∧
        (st'.length : Int) = finalSize (stack.length : Int) rem) ∨
      (∃ e, evaluateGo stack rem = .error e ∧ e.isArith = true) := by
  intro rem
  induction rem with
  | nil =>
    intro stack _ _
    exact Or.inl ⟨stack, rfl, by rw [finalSize_nil]⟩
  | cons t rest ih =>
    intro stack hnb hshape
    rw [noBrackets_cons, Bool.and_eq_true] at hnb
    cases t with
    | br b => simp [Token.isBr] at hnb
    | num f =>
      have hlen : (((f :: stack).length : Nat) : Int) = (stack.length : Int) + 1 := by
        simp [List.length_cons]
      have hshape' : shapeRun (((f :: stack).length : Nat) : Int) rest = true := by
        rw [hlen]; exact hshape
      rcases ih (f :: stack) hnb.2 hshape' with ⟨st', heq, hl⟩ | ⟨e, heq, he⟩
      · refine Or.inl ⟨st', ?_, ?_⟩
        · simpa [evaluateGo] using heq
        · rw [hl, hlen, finalSize_cons]; rfl
      · exact Or.inr ⟨e, by simpa [evaluateGo] using heq, he⟩
    | op o =>
      simp only [shapeRun, Bool.and_eq_true, decide_eq_true_eq] at hshape
      obtain ⟨hge, hshape'⟩ := hshape
      match stack, hge with
      | x :: y :: s, _ =>
        cases happly : applyOp o y x with
        | error e =>
          refine Or.inr ⟨e, ?_, applyOp_error_isArith happly⟩
          simp only [evaluateGo, happly]
        | ok r =>
          have hshape2 : shapeRun (((r :: s).length : Nat) : Int) rest = true := by
            have : (((r :: s).length : Nat) : Int) = ((x :: y :: s).length : Int) - 1 := by
              simp [List.length_cons]
            rw [this]; exact hshape'
          rcases ih (r :: s) hnb.2 hshape2 with ⟨st', heq, hl⟩ | ⟨e, heq, he⟩
          · refine Or.inl ⟨st', ?_, ?_⟩
            · simp only [evaluateGo, happly]; exact heq
            · rw [hl, finalSize_cons]
              have : (((r :: s).length : Nat) : Int) = ((x :: y :: s).length : Int) - 1 := by
                simp [List.length_cons]
              rw [this]
              norm_num [sizeDelta]
          · refine Or.inr ⟨e, ?_, he⟩
            simp only [evaluateGo, happly]; exact heq

theorem evaluateGo_shape_false :
    ∀ (rem : List Token) (stack : List Fraction),
      noBrackets rem = true → shapeRun (stack.length : Int) rem = false →
      ∃ e, evaluateGo stack rem = .error e ∧ (e.isArith = true ∨ e = .reduceError) := by
  intro rem
  induction rem with
  | nil => intro stack _ h; simp [shapeRun] at h
  | cons t rest ih =>
    intro stack hnb hshape
    rw [noBrackets_cons, Bool.and_eq_true] at hnb
    cases t with
    | br b => simp [Token.isBr] at hnb
    | num f =>
      have hlen : (((f :: stack).length : Nat) : Int) = (stack.length : Int) + 1 := by
        simp [List.length_cons]
      have hshape' : shapeRun (((f :: stack).length : Nat) : Int) rest = false := by
        rw [hlen]; exact hshape
      obtain ⟨e, heq, hcase⟩ := ih (f :: stack) hnb.2 hshape'
      exact ⟨e, by simpa [evaluateGo] using heq, hcase⟩
    | op o =>
      simp only [shapeRun, Bool.and_eq_false_iff] at hshape
      by_cases hge : 2 ≤ (stack.length : Int)
      · have hshape' : shapeRun ((stack.length : Int) - 1) rest = false := by
          rcases hshape with h | h
          · exact absurd (by exact_mod_cast hge) (by simpa using h)
          · exact h
        match stack, hge with
        | x :: y :: s, _ =>
          cases happly : applyOp o y x with
          | error e =>
            exact ⟨e, by simp only [evaluateGo, happly], Or.inl (applyOp_error_isArith happly)⟩
          | ok r =>
            have hshape2 : shapeRun (((r :: s).length : Nat) : Int) rest = false := by
              have : (((r :: s).length : Nat) : Int) = ((x :: y :: s).length : Int) - 1 := by
                simp [List.length_cons]
              rw [this]; exact hshape'
            obtain ⟨e, heq, hcase⟩ := ih (r :: s) hnb.2 hshape2
            exact ⟨e, by simp only [evaluateGo, happly]; exact heq, hcase⟩
      · have hlt : stack.length < 2 := by exact_mod_cast not_le.mp hge
        match stack, hlt with
        | [], _ => exact ⟨.reduceError, rfl, Or.inr rfl⟩
        | [x], _ => exact ⟨.reduceError, rfl, Or.inr rfl⟩

theorem finalSize_pos :
    ∀ (rem : List Token) (s : Int), noBrackets rem = true → shapeRun s rem = true →
      0 ≤ s → rem ≠ [] → 1 ≤ finalSize s rem := by
  intro rem
  induction rem with
  | nil => intro s _ _ _ h; exact absurd rfl h
  | cons t rest ih =>
    intro s hnb hshape hs _
    rw [noBrackets_cons, Bool.and_eq_true] at hnb
    cases t with
    | br b => simp [Token.isBr] at hnb
    | num f =>
      by_cases hr : rest = []
      · subst hr
        rw [finalSize_cons, finalSize_nil]
        simp only [sizeDelta]
        omega
      · rw [finalSize_cons]
        exact ih (s + sizeDelta (.num f)) hnb.2 hshape (by simp [sizeDelta]; omega) hr
    | op o =>
      simp only [shapeRun, Bool.and_eq_true, decide_eq_true_eq] at hshape
      by_cases hr : rest = []
      · subst hr
        rw [finalSize_cons, finalSize_nil]
        simp only [sizeDelta]
        omega
      · rw [finalSize_cons]
        exact ih (s + sizeDelta (.op o)) hnb.2
          (by simpa [sizeDelta] using hshape.2) (by simp [sizeDelta]; omega) hr

/-- C6 (amended): for a postfix sequence of `Number`/`Operator` tokens whose
evaluation does not fail inside an operator application, `evaluate` fails with
a `MalformedExpression` `ValueError` exactly when the sequence is non-empty
and its stack shape is invalid (some operator sees fewer than two operands,
or the final stack holds more than one value); the empty sequence instead
fails with a language-level `IndexError` from `stack.pop()`, and it is the
only input that does so. -/
theorem c6_amended :
    ∀ rpn : List Token, noBrackets rpn = true → exceptArith (evaluate rpn) = false →
      ((malformedB (evaluate rpn) = true) ↔
        (rpn ≠ [] ∧ ¬(shapeRun 0 rpn = true ∧ finalSize 0 rpn = 1))) ∧
      (evaluate rpn = .error .indexError ↔ rpn = []) := by
  intro rpn hnb hna
  have hcast : ((([] : List Fraction).length : Nat) : Int) = 0 := by simp
  cases hshape : shapeRun 0 rpn with
  | false =>
    obtain ⟨e, heq, hcase⟩ := evaluateGo_shape_false rpn [] hnb (by rw [hcast, hshape])
    have hevE : evaluate rpn = .error e := by
      simp only [evaluate, heq]
    have he : e = .reduceError := by
      rcases hcase with h | h
      · exfalso
        rw [hevE] at hna
        simp only [exceptArith, h] at hna
        exact Bool.noConfusion hna
      · exact h
    subst he
    refine ⟨⟨fun _ => ⟨?_, ?_⟩, fun _ => by rw [hevE]; rfl⟩, ?_, ?_⟩
    · rintro rfl
      rw [show shapeRun 0 ([] : List Token) = true from rfl] at hshape
      exact Bool.noConfusion hshape
    · rintro ⟨h1, _⟩
      exact Bool.noConfusion h1
    · intro h
      rw [hevE] at h
      exact Err.noConfusion (Except.error.inj h)
    · rintro rfl
      rw [show shapeRun 0 ([] : List Token) = true from rfl] at hshape
      exact Bool.noConfusion hshape
  | true =>
    rcases evaluateGo_shape_true rpn [] hnb (by rw [hcast, hshape]) with
      ⟨st', heq, hlen⟩ | ⟨e, heq, he⟩
    · rw [hcast] at hlen
      cases st' with
      | nil =>
        have hrpn : rpn = [] := by
          by_contra hne
          have h1 := finalSize_pos rpn 0 hnb hshape le_rfl hne
          rw [← hlen] at h1
          simp at h1
        subst hrpn
        refine ⟨⟨fun h => ?_, fun h => absurd rfl h.1⟩, fun _ => rfl, fun _ => rfl⟩
        rw [show evaluate ([] : List Token) = .error .indexError from rfl] at h
        exact Bool.noConfusion h
      | cons a tail =>
        have hne : rpn ≠ [] := by
          rintro rfl
          rw [show evaluateGo ([] : List Fraction) ([] : List Token)
            = .ok ([] : List Fraction) from rfl] at heq
          exact List.noConfusion (Except.ok.inj heq)
        cases tail with
        | nil =>
          have hev : evaluate rpn = .ok a := by
            simp only [evaluate, heq]
          have hfs : finalSize 0 rpn = 1 := by rw [← hlen]; rfl
          refine ⟨⟨fun h => ?_, fun h => ?_⟩, fun h => ?_, fun h => absurd h hne⟩
          · rw [hev] at h
            exact Bool.noConfusion h
          · exact absurd ⟨rfl, hfs⟩ h.2
          · rw [hev] at h
            exact Except.noConfusion h
        | cons b tail2 =>
          have hev : evaluate rpn = .error .redundantNumber := by
            simp only [evaluate, heq]
          have hfs : 2 ≤ finalSize 0 rpn := by
            rw [← hlen]
            simp only [List.length_cons]
            push_cast
            omega
          refine ⟨⟨fun _ => ⟨hne, fun hcon => by have h2 := hcon.2; omega⟩, fun _ => by rw [hev]; rfl⟩,
            fun h => ?_, fun h => absurd h hne⟩
          · rw [hev] at h
            exact Err.noConfusion (Except.error.inj h)
    · exfalso
      have hevE : evaluate rpn = .error e := by
        simp only [evaluate, heq]
      rw [hevE] at hna
      simp only [exceptArith, he] at hna
      exact Bool.noConfusion hna

/-- Witness for C6 (amended) at the one-operand sequence `[1, +]`, on which
`evaluate` raises the reduce-time `MalformedExpression`. -/
theorem c6_amended_witness :
    noBrackets [Token.num ⟨1, 1⟩, Token.op .add] = true ∧
    exceptArith (evaluate [Token.num ⟨1, 1⟩, Token.op .add]) = false ∧
    (((malformedB (evaluate [Token.num ⟨1, 1⟩, Token.op .add]) = true) ↔
      ([Token.num ⟨1, 1⟩, Token.op .add] ≠ ([] : List Token) ∧
        ¬(shapeRun 0 [Token.num ⟨1, 1⟩, Token.op .add] = true ∧
          finalSize 0 [Token.num ⟨1, 1⟩, Token.op .add] = 1))) ∧
      (evaluate [Token.num ⟨1, 1⟩, Token.op .add] = .error .indexError ↔
        [Token.num ⟨1, 1⟩, Token.op .add] = ([] : List Token))) :=
  ⟨rfl, rfl, c6_amended [Token.num ⟨1, 1⟩, Token.op .add] rfl rfl⟩

theorem fmod_neg_bounds : ∀ (a : Int) {b : Int}, b < 0 →
    b < Int.fmod a b ∧ Int.fmod a b ≤ 0 := by
  intro a b hb
  cases b with
  | ofNat n => exact absurd hb (not_lt.mpr (Int.ofNat_zero_le n))
  | negSucc n =>
    cases a with
    | ofNat m =>
      cases m with
      | zero =>
        rw [show Int.fmod (Int.ofNat 0) (Int.negSucc n) = 0 from rfl]
        exact ⟨hb, le_rfl⟩
      | succ k =>
        rw [show Int.fmod (Int.ofNat (k + 1)) (Int.negSucc n)
          = Int.subNatNat (k % (n + 1)) n from rfl]
        rw [Int.subNatNat_eq_coe, Int.negSucc_eq]
        have h1 : k % (n + 1) < n + 1 := Nat.mod_lt _ (Nat.succ_pos n)
        omega
    | negSucc m =>
      rw [show Int.fmod (Int.negSucc m) (Int.negSucc n)
        = -((((m + 1) % (n + 1) : Nat)) : Int) from rfl]
      rw [Int.negSucc_eq]
      have h1 : (m + 1) % (n + 1) < n + 1 := Nat.mod_lt _ (Nat.succ_pos n)
      omega

theorem fmod_natAbs_lt (a : Int) {b : Int} (hb : b ≠ 0) :
    (Int.fmod a b).natAbs < b.natAbs := by
  rcases lt_or_gt_of_ne hb with h | h
  · have h2 := fmod_neg_bounds a h
    omega
  · have h1 := Int.fmod_nonneg' a h
    have h2 := Int.fmod_lt_of_pos a h
    omega

theorem gcdAux_fuel_irrel :
    ∀ (f₁ : Nat) (a b : Int) (f₂ : Nat), b.natAbs < f₁ → b.natAbs < f₂ →
      gcdAux a b f₁ = gcdAux a b f₂ := by
  intro f₁
  induction f₁ with
  | zero => intro a b f₂ h _; exact absurd h (Nat.not_lt_zero _)
  | succ f ih =>
    intro a b f₂ h1 h2
    cases f₂ with
    | zero => exact absurd h2 (Nat.not_lt_zero _)
    | succ f' =>
      simp only [gcdAux]
      by_cases hb : b = 0
      · simp [hb]
      · simp only [hb, if_false]
        have hlt := fmod_natAbs_lt a hb
        exact ih b (Int.fmod a b) f' (by omega) (by omega)

theorem gcd_eq (a b : Int) : gcd a b = if b = 0 then a else gcd b (Int.fmod a b) := by
  unfold gcd
  by_cases hb : b = 0
  · simp [gcdAux, hb]
  · simp only [gcdAux, hb, if_false]
    exact gcdAux_fuel_irrel _ _ _ _ (fmod_natAbs_lt a hb) (Nat.lt_succ_self _)

theorem gcd_dvd (a b : Int) : gcd a b ∣ a ∧ gcd a b ∣ b := by
  rw [gcd_eq]
  by_cases hb : b = 0
  · subst hb
    rw [if_pos rfl]
    exact ⟨dvd_refl a, dvd_zero a⟩
  · rw [if_neg hb]
    obtain ⟨h1, h2⟩ := gcd_dvd b (Int.fmod a b)
    refine ⟨?_, h1⟩
    have h3 : gcd b (Int.fmod a b) ∣ Int.fmod a b + b * Int.fdiv a b :=
      dvd_add h2 (h1.mul_right _)
    rwa [Int.fmod_add_fdiv] at h3
termination_by b.natAbs
decreasing_by exact fmod_natAbs_lt a hb

theorem gcd_greatest (a b c : Int) (ha : c ∣ a) (hb : c ∣ b) : c ∣ gcd a b := by
  rw [gcd_eq]
  by_cases h0 : b = 0
  · rw [if_pos h0]; exact ha
  · rw [if_neg h0]
    refine gcd_greatest b (Int.fmod a b) c hb ?_
    rw [Int.fmod_def a b]
    exact dvd_sub ha (hb.mul_right _)
termination_by b.natAbs
decreasing_by exact fmod_natAbs_lt a h0

theorem gcd_sign (a b : Int) (hb : b ≠ 0) :
    (0 < b → 0 < gcd a b) ∧ (b < 0 → gcd a b < 0) := by
  rw [gcd_eq, if_neg hb]
  by_cases hr : Int.fmod a b = 0
  · rw [gcd_eq, hr, if_pos rfl]
    exact ⟨fun h => h, fun h => h⟩
  · have hrec := gcd_sign b (Int.fmod a b) hr
    constructor
    · intro hpos
      have h1 := Int.fmod_nonneg' a hpos
      exact hrec.1 (by omega)
    · intro hneg
      have h2 := fmod_neg_bounds a hneg
      exact hrec.2 (by omega)
termination_by b.natAbs
decreasing_by exact fmod_natAbs_lt a hb

theorem natAbs_gcd_eq (a b : Int) : (gcd a b).natAbs = Int.gcd a b := by
  have h1 := gcd_dvd a b
  have h2 : ((Int.gcd a b : Nat) : Int) ∣ gcd a b :=
    gcd_greatest a b _ Int.gcd_dvd_left Int.gcd_dvd_right
  have h3 : gcd a b ∣ ((Int.gcd a b : Nat) : Int) := Int.dvd_gcd h1.1 h1.2
  have h4 : (gcd a b).natAbs ∣ Int.gcd a b := by
    have h := Int.natAbs_dvd_natAbs.mpr h3
    simpa using h
  have h5 : Int.gcd a b ∣ (gcd a b).natAbs := by
    have h := Int.natAbs_dvd_natAbs.mpr h2
    simpa using h
  exact Nat.dvd_antisymm h4 h5

theorem fdiv_of_eq_mul {g n k : Int} (hg : g ≠ 0) (h : n = g * k) : Int.fdiv n g = k := by
  rw [h]
  exact Int.mul_fdiv_cancel_left k hg

theorem pos_cofactor {g d kd : Int} (hkd : d = g * kd) (hd : d ≠ 0)
    (hsame : (0 < d → 0 < g) ∧ (d < 0 → g < 0)) : 0 < kd := by
  rcases lt_or_gt_of_ne hd with hneg | hpos
  · have hg := hsame.2 hneg
    have hmul : g * kd < 0 := hkd ▸ hneg
    rcases mul_neg_iff.mp hmul with ⟨hg1, _⟩ | ⟨_, hk⟩
    · omega
    · exact hk
  · have hg := hsame.1 hpos
    have hmul : 0 < g * kd := hkd ▸ hpos
    rcases mul_pos_iff.mp hmul with ⟨_, hk⟩ | ⟨hg1, _⟩
    · exact hk
    · omega

theorem coprime_cofactors {g n d kn kd : Int} (hg : g ≠ 0)
    (hkn : n = g * kn) (hkd : d = g * kd) (hga : g.natAbs = Int.gcd n d) :
    Int.gcd kn kd = 1 := by
  have hmul : Int.gcd n d = g.natAbs * Int.gcd kn kd := by
    rw [hkn, hkd]
    exact Int.gcd_mul_left g kn kd
  have hpos : 0 < g.natAbs := by omega
  have h6 : g.natAbs * Int.gcd kn kd = g.natAbs * 1 :=
    hmul.symm.trans (hga.symm.trans (Nat.mul_one _).symm)
  exact Nat.eq_of_mul_eq_mul_left hpos h6

theorem mkFraction_ok_inv {n d : Int} {f : Fraction} (h : mkFraction n d = .ok f) :
    Inv f := by
  by_cases hd : d = 0
  · simp only [mkFraction, hd, if_pos rfl] at h
    exact Except.noConfusion h
  · simp only [mkFraction, hd, if_false] at h
    have hf := Except.ok.inj h
    have hdvd := gcd_dvd n d
    have hsign := gcd_sign n d hd
    have hgne : gcd n d ≠ 0 := by
      rcases lt_or_gt_of_ne hd with hneg | hpos
      · have := hsign.2 hneg; omega
      · have := hsign.1 hpos; omega
    obtain ⟨kn, hkn⟩ := hdvd.1
    obtain ⟨kd, hkd⟩ := hdvd.2
    have hfn : f.numerator = kn := by
      rw [← hf]
      exact fdiv_of_eq_mul hgne hkn
    have hfd : f.denominator = kd := by
      rw [← hf]
      exact fdiv_of_eq_mul hgne hkd
    constructor
    · rw [hfd]
      exact pos_cofactor hkd hd hsign
    · rw [hfn, hfd]
      exact coprime_cofactors hgne hkn hkd (natAbs_gcd_eq n d)

theorem applyOp_ok_inv {o : Op} {a b f : Fraction} (h : applyOp o a b = .ok f) :
    Inv f := by
  cases o with
  | add =>
    simp only [applyOp, fracAdd] at h
    exact mkFraction_ok_inv h
  | sub =>
    simp only [applyOp, fracSub] at h
    exact mkFraction_ok_inv h
  | mul =>
    simp only [applyOp, fracMul] at h
    exact mkFraction_ok_inv h
  | div =>
    simp only [applyOp, fracDiv] at h
    exact mkFraction_ok_inv h
  | mod =>
    simp only [applyOp, fracMod] at h
    split at h
    · exact Except.noConfusion h
    · exact mkFraction_ok_inv h
  | pow =>
    simp only [applyOp, fracPow] at h
    split at h
    · exact Except.noConfusion h
    · exact mkFraction_ok_inv h

/-- C9: every `Fraction` the constructor returns, and every `Fraction` any of
the six operator evaluation functions returns, has a positive non-zero
denominator and coprime numerator/denominator (lowest terms); in particular
the invariant is preserved by every operation on invariant-satisfying
operands.  (For `^` with a negative exponent the source leaves the integers —
Python returns a `float` — so no `Fraction` of the integer model is produced
there; see `fracPow`.) -/
theorem c9_invariant_preserved :
    (∀ (n d : Int) (f : Fraction), mkFraction n d = .ok f → Inv f) ∧
    (∀ (o : Op) (a b f : Fraction), Inv a → Inv b → applyOp o a b = .ok f → Inv f) :=
  ⟨fun _ _ _ h => mkFraction_ok_inv h, fun _ _ _ _ _ _ h => applyOp_ok_inv h⟩

/-- Witness for C9: the constructor normalizes `2 / -4` to `-1/2`, and
`1/2 + 1/3 = 5/6`, both satisfying the invariant. -/
theorem c9_invariant_preserved_witness :
    (mkFraction 2 (-4) = .ok ⟨-1, 2⟩ ∧ Inv (⟨-1, 2⟩ : Fraction)) ∧
    (Inv (⟨1, 2⟩ : Fraction) ∧ Inv (⟨1, 3⟩ : Fraction) ∧
      applyOp .add ⟨1, 2⟩ ⟨1, 3⟩ = .ok ⟨5, 6⟩ ∧ Inv (⟨5, 6⟩ : Fraction)) :=
  ⟨⟨rfl, c9_invariant_preserved.1 2 (-4) ⟨-1, 2⟩ rfl⟩,
   ⟨by decide, by decide, rfl,
    c9_invariant_preserved.2 .add ⟨1, 2⟩ ⟨1, 3⟩ ⟨5, 6⟩ (by decide) (by decide) rfl⟩⟩

end Calculator
